import Mathlib

/-!
Verification development for the WorldClassCryptoExchange repository.

The repository's checked-in sources contain the project documentation, the
frontend scaffolding, and the DeFi React components (`DeFiPortfolio`,
`NewPositionForm`, `DeFiService`, `formatters`); the Rust matching engine
described by the documentation (`src/trading_engine/…`) is not present in
the tree.  The `Engine` namespace therefore models the matching core from
the specification text; the `Frontend` namespace is a direct shallow
embedding of the TypeScript code that is present.

Prices and quantities are fixed-point integers (`Nat`), following the
specification's representation choice.
-/

set_option maxHeartbeats 1000000

namespace Spec2Proof

namespace Engine

/-- Modelled from the spec: order side (buy/sell). -/
inductive Side
  | buy
  | sell
deriving DecidableEq, Repr

/-- Modelled from the spec: order type.  The repository's matching-engine
source (`src/trading_engine/matching_engine.rs`) is absent from the tree;
the spec lists limit, market, stop, OCO and iceberg, and the claims under
verification exercise only the limit and market behaviour, so those two
are modelled.  A limit order carries its limit price; a market order has
no price and never rests. -/
inductive OrderType
  | limit (price : Nat)
  | market
deriving DecidableEq, Repr

/-- Modelled from the spec: an order intent as submitted — identity,
side, type and total quantity. -/
structure Order where
  orderId : Nat
  side : Side
  otype : OrderType
  quantity : Nat
deriving DecidableEq, Repr

/-- Modelled from the spec: a resting order in the book — its identity,
the price at which it rests and its remaining quantity. -/
structure Resting where
  orderId : Nat
  price : Nat
  remaining : Nat
deriving DecidableEq, Repr

/-- Modelled from the spec: the per-symbol order book.  The spec stores
each side as a price-ordered map of FIFO price levels; this model
flattens each side into a single list of resting orders sorted by price
priority (bids descending, asks ascending), equal-price runs kept in
arrival (FIFO) order — a maximal equal-price run of the list is exactly
one `PriceLevel` of the spec. -/
structure OrderBook where
  bids : List Resting
  asks : List Resting
deriving DecidableEq, Repr

/-- Modelled from the spec: a committed trade — maker order id, taker
order id, execution price and executed quantity.  The audit sequence
number and timestamp live on the `AuditRecord` that commits the trade. -/
structure Trade where
  makerOrderId : Nat
  takerOrderId : Nat
  price : Nat
  quantity : Nat
deriving DecidableEq, Repr

/-- Modelled from the spec: is a resting price acceptable to the incoming
order — within the limit for a limit order (asks priced at or below a
buy's limit, bids at or above a sell's limit), any price for a market
order. -/
def acceptable (side : Side) (ty : OrderType) (restingPrice : Nat) : Bool :=
  match ty with
  | .market => true
  | .limit p =>
    match side with
    | .buy => decide (restingPrice ≤ p)
    | .sell => decide (p ≤ restingPrice)

/-- Modelled from the spec: rest an order on the ask side (ascending by
price).  The new order is placed behind every resting order whose price
is at most its own, so it joins the back of its price level's FIFO
queue. -/
def insertAsk (o : Resting) : List Resting → List Resting
  | [] => [o]
  | r :: t => if r.price ≤ o.price then r :: insertAsk o t else o :: r :: t

/-- Modelled from the spec: rest an order on the bid side (descending by
price).  The new order is placed behind every resting order whose price
is at least its own, so it joins the back of its price level's FIFO
queue. -/
def insertBid (o : Resting) : List Resting → List Resting
  | [] => [o]
  | r :: t => if o.price ≤ r.price then r :: insertBid o t else o :: r :: t

/-- Modelled from the spec: the matching loop of `submit` (the engine
source is absent from the tree).  While the incoming order has remaining
quantity and the front of the opposite side is at an acceptable price,
pop that resting order, execute `min(incoming.remaining,
resting.remaining)` at the resting order's price, decrement both
remaining quantities, and drop the resting order when fully consumed.
Returns the trades in generation order, the opposite side after
matching, and the incoming order's remaining quantity. -/
def matchLoop (takerId : Nat) (side : Side) (ty : OrderType) :
    Nat → List Resting → List Trade × List Resting × Nat
  | rem, [] => ([], [], rem)
  | rem, r :: t =>
    if rem = 0 then ([], r :: t, rem)
    else if acceptable side ty r.price then
      let q := min rem r.remaining
      if r.remaining ≤ rem then
        let out := matchLoop takerId side ty (rem - q) t
        (⟨r.orderId, takerId, r.price, q⟩ :: out.1, out.2.1, out.2.2)
      else
        ([⟨r.orderId, takerId, r.price, q⟩],
          { r with remaining := r.remaining - q } :: t, rem - q)
    else ([], r :: t, rem)

/-- Modelled from the spec: what became of the incoming order after one
matching cycle — fully executed, rested as a limit remainder, or expired
(the cancelled remainder of a market order). -/
inductive SubmitOutcome
  | filled
  | rested (rem : Nat)
  | expired (rem : Nat)
deriving DecidableEq, Repr

/-- Modelled from the spec: `submit(order)` on the book alone.  Match
against the opposite side; a limit remainder rests at the back of its
price level, a market remainder is cancelled and never rests. -/
def submitOrder (b : OrderBook) (o : Order) :
    List Trade × OrderBook × SubmitOutcome :=
  match o.side with
  | .buy =>
    let out := matchLoop o.orderId .buy o.otype o.quantity b.asks
    if out.2.2 = 0 then (out.1, ⟨b.bids, out.2.1⟩, .filled)
    else
      match o.otype with
      | .limit p =>
        (out.1, ⟨insertBid ⟨o.orderId, p, out.2.2⟩ b.bids, out.2.1⟩,
          .rested out.2.2)
      | .market => (out.1, ⟨b.bids, out.2.1⟩, .expired out.2.2)
  | .sell =>
    let out := matchLoop o.orderId .sell o.otype o.quantity b.bids
    if out.2.2 = 0 then (out.1, ⟨out.2.1, b.asks⟩, .filled)
    else
      match o.otype with
      | .limit p =>
        (out.1, ⟨out.2.1, insertAsk ⟨o.orderId, p, out.2.2⟩ b.asks⟩,
          .rested out.2.2)
      | .market => (out.1, ⟨out.2.1, b.asks⟩, .expired out.2.2)

/-- Sum of the executed quantities of a list of trades. -/
def sumQty (ts : List Trade) : Nat := (ts.map Trade.quantity).sum

/-- Sum of the remaining quantities of a list of resting orders. -/
def sumRem (l : List Resting) : Nat := (l.map Resting.remaining).sum

/-- Consume a total quantity strictly from the front of a FIFO list of
resting orders: drop fully consumed front orders, reduce the first
partially consumed one in place.  Matching is FIFO exactly when its
effect on the opposite side equals this front consumption. -/
def consumeFront (q : Nat) : List Resting → List Resting
  | [] => []
  | r :: t =>
    if q = 0 then r :: t
    else if r.remaining ≤ q then consumeFront (q - r.remaining) t
    else { r with remaining := r.remaining - q } :: t

/-- The remaining quantity recorded in the book for an order id, `0` when
the order is absent (fully consumed orders are removed). -/
def remainingIn (l : List Resting) (id : Nat) : Nat :=
  match l.find? (fun r => r.orderId == id) with
  | some r => r.remaining
  | none => 0

/-- Modelled from the spec: order lifecycle status. -/
inductive OrderStatus
  | New
  | Open
  | PartiallyFilled
  | Filled
  | Cancelled
  | Rejected
  | Expired
deriving DecidableEq, Repr

/-- Modelled from the spec: the terminal statuses, at which an order has
left the active book for good. -/
def isTerminal : OrderStatus → Bool
  | .Filled => true
  | .Cancelled => true
  | .Rejected => true
  | .Expired => true
  | _ => false

/-- Modelled from the spec: the circuit breaker's per-symbol state. -/
inductive BreakerState
  | Open
  | Halted
deriving DecidableEq, Repr

/-- Modelled from the spec: reasons an intent is rejected — a risk-check
failure with its reason code, or the retryable circuit-breaker halt. -/
inductive RejectReason
  | risk (code : Nat)
  | halted
deriving DecidableEq, Repr

/-- Modelled from the spec: the event payloads of the audit log — Accept,
Reject, Trade, Cancel (performed or no-op) and Halt. -/
inductive Event
  | accept (o : Order)
  | reject (o : Order) (reason : RejectReason)
  | trade (t : Trade)
  | cancelOk (orderId : Nat)
  | cancelNoop (orderId : Nat)
  | halt
deriving DecidableEq, Repr

/-- Numeric code of a side, for hashing. -/
def sideCode : Side → Nat
  | .buy => 0
  | .sell => 1

/-- Numeric code of an order type, for hashing. -/
def typeCode : OrderType → Nat
  | .limit p => Nat.pair 0 p
  | .market => Nat.pair 1 0

/-- Numeric code of an order, for hashing. -/
def orderCode (o : Order) : Nat :=
  Nat.pair o.orderId (Nat.pair (sideCode o.side) (Nat.pair (typeCode o.otype) o.quantity))

/-- Numeric code of an event payload, for hashing. -/
def eventCode : Event → Nat
  | .accept o => Nat.pair 0 (orderCode o)
  | .reject o (.risk c) => Nat.pair 1 (Nat.pair (orderCode o) c)
  | .reject o .halted => Nat.pair 2 (orderCode o)
  | .trade t =>
    Nat.pair 3 (Nat.pair t.makerOrderId (Nat.pair t.takerOrderId (Nat.pair t.price t.quantity)))
  | .cancelOk id => Nat.pair 4 id
  | .cancelNoop id => Nat.pair 5 id
  | .halt => Nat.pair 6 0

/-- Modelled from the spec: the record hash commits to the previous
record's hash and the payload.  The cryptographic hash of the spec is
modelled by the injective `Nat.pair`. -/
def chainHash (prev payload : Nat) : Nat := Nat.pair prev payload

/-- Modelled from the spec: one record of the tamper-evident audit log —
monotonic sequence number, event payload, the previous record's hash and
this record's own chained hash. -/
structure AuditRecord where
  seq : Nat
  event : Event
  prevHash : Nat
  hash : Nat
deriving DecidableEq, Repr

/-- Modelled from the spec: the synchronous response reported to the
caller of an intent. -/
inductive Response
  | accepted (trades : List Trade)
  | rejected (reason : RejectReason)
  | cancelled
  | cancelAlreadyTerminal
  | cancelUnknown
deriving DecidableEq, Repr

/-- Modelled from the spec: an intent dequeued by the single-writer
matching loop — a submission or a cancel. -/
inductive Intent
  | submit (o : Order)
  | cancel (orderId : Nat)
deriving DecidableEq, Repr

/-- Modelled from the spec: the engine's per-symbol state — the live
book, the committed trade history, the audit log, the order-status
index, the circuit-breaker state and the next audit sequence number. -/
structure EngineState where
  book : OrderBook
  trades : List Trade
  log : List AuditRecord
  statuses : List (Nat × OrderStatus)
  breaker : BreakerState
  nextSeq : Nat
deriving DecidableEq, Repr

/-- Modelled from the spec: engine configuration — the Risk Validator's
verdict function (its balance/limit checks read cached account state
external to the book, so the verdict is a parameter), and the circuit
breaker's reference price and percentage deviation threshold. -/
structure EngineConfig where
  riskCheck : Order → Option Nat
  reference : Nat
  thresholdPct : Nat

/-- The empty initial engine state. -/
def initState : EngineState := ⟨⟨[], []⟩, [], [], [], .Open, 0⟩

/-- Hash of the last audit record, `0` for the empty log. -/
def lastHash (log : List AuditRecord) : Nat :=
  match log.getLast? with
  | some r => r.hash
  | none => 0

/-- Modelled from the spec: `append(event)` of the Audit Logger — append
one record carrying the next sequence number and the chained hash. -/
def appendEvent (s : EngineState) (e : Event) : EngineState :=
  { s with
    log := s.log ++ [⟨s.nextSeq, e, lastHash s.log, chainHash (lastHash s.log) (eventCode e)⟩],
    nextSeq := s.nextSeq + 1 }

/-- Append a list of events in order. -/
def appendEvents (s : EngineState) (es : List Event) : EngineState :=
  es.foldl appendEvent s

/-- Record an order's status (newest entry shadows older ones). -/
def setStatus (m : List (Nat × OrderStatus)) (id : Nat) (st : OrderStatus) :
    List (Nat × OrderStatus) :=
  (id, st) :: m

/-- Is an order id resting anywhere in the book. -/
def inBook (b : OrderBook) (id : Nat) : Bool :=
  (b.bids ++ b.asks).any (fun r => r.orderId == id)

/-- Remove an order id from both sides of the book. -/
def removeOrder (b : OrderBook) (id : Nat) : OrderBook :=
  ⟨b.bids.filter (fun r => r.orderId != id), b.asks.filter (fun r => r.orderId != id)⟩

/-- The best opposite-side resting order for an incoming order. -/
def bestOpp (b : OrderBook) : Side → Option Resting
  | .buy => b.asks.head?
  | .sell => b.bids.head?

/-- Modelled from the spec: an order is marketable when it crosses the
opposite side's best available price (a market order crosses any
liquidity, no liquidity means not marketable). -/
def marketable (b : OrderBook) (o : Order) : Bool :=
  match bestOpp b o.side with
  | none => false
  | some r => acceptable o.side o.otype r.price

/-- Modelled from the spec: does a prospective print price deviate from
the breaker's reference by more than the configured percentage
threshold. -/
def deviationExceeds (reference thresholdPct price : Nat) : Bool :=
  decide (thresholdPct * reference <
    100 * (if reference ≤ price then price - reference else reference - price))

/-- Modelled from the spec: the circuit breaker trips when the incoming
order is marketable and its prospective execution price — the best
opposite resting price, since the resting side's price wins — deviates
beyond the threshold. -/
def haltTrigger (cfg : EngineConfig) (b : OrderBook) (o : Order) : Bool :=
  match bestOpp b o.side with
  | none => false
  | some r =>
    acceptable o.side o.otype r.price &&
      deviationExceeds cfg.reference cfg.thresholdPct r.price

/-- Update maker statuses after a matching cycle: a maker still resting
is `PartiallyFilled`, a maker removed from the book is `Filled`. -/
def applyMakerStatuses (b : OrderBook) (m : List (Nat × OrderStatus))
    (ts : List Trade) : List (Nat × OrderStatus) :=
  ts.foldl
    (fun acc t =>
      setStatus acc t.makerOrderId
        (if inBook b t.makerOrderId then .PartiallyFilled else .Filled))
    m

/-- The incoming order's status after its matching cycle. -/
def takerStatus (ts : List Trade) : SubmitOutcome → OrderStatus
  | .filled => .Filled
  | .rested _ => if ts.isEmpty then .Open else .PartiallyFilled
  | .expired _ => .Expired

/-- Modelled from the spec: run one accepted submission through the
matching engine — match, mutate the book, update statuses, commit the
Accept record and one Trade record per trade, and report the trades
synchronously. -/
def execSubmit (s : EngineState) (o : Order) : EngineState × Response :=
  let out := submitOrder s.book o
  let sts := applyMakerStatuses out.2.1
    (setStatus s.statuses o.orderId (takerStatus out.1 out.2.2)) out.1
  let s1 := { s with book := out.2.1, trades := s.trades ++ out.1, statuses := sts }
  (appendEvents s1 (Event.accept o :: out.1.map Event.trade), .accepted out.1)

/-- Modelled from the spec: the single-writer processing of one intent.
A submission passes the Risk Validator first (a rejection touches
neither book nor trades and commits exactly a Reject record); the
circuit breaker then rejects marketable intents while `Halted` and trips
to `Halted` on an excessive prospective print; everything else reaches
the matching engine.  A cancel never consults the breaker: it is a
performed cancel for a live order, a no-op for a terminal one, and a
logged no-op for an unknown id. -/
def processIntent (cfg : EngineConfig) (s : EngineState) :
    Intent → EngineState × Response
  | .cancel id =>
    match List.lookup id s.statuses with
    | none => (appendEvent s (.cancelNoop id), .cancelUnknown)
    | some st =>
      if isTerminal st then (appendEvent s (.cancelNoop id), .cancelAlreadyTerminal)
      else
        (appendEvent
          { s with book := removeOrder s.book id,
                   statuses := setStatus s.statuses id .Cancelled }
          (.cancelOk id), .cancelled)
  | .submit o =>
    match cfg.riskCheck o with
    | some code =>
      (appendEvent { s with statuses := setStatus s.statuses o.orderId .Rejected }
        (.reject o (.risk code)), .rejected (.risk code))
    | none =>
      match s.breaker with
      | .Halted =>
        if marketable s.book o then
          (appendEvent { s with statuses := setStatus s.statuses o.orderId .Rejected }
            (.reject o .halted), .rejected .halted)
        else execSubmit s o
      | .Open =>
        if haltTrigger cfg s.book o then
          (appendEvent
            { appendEvent { s with breaker := .Halted } .halt with
              statuses :=
                setStatus (appendEvent { s with breaker := .Halted } .halt).statuses
                  o.orderId .Rejected }
            (.reject o .halted), .rejected .halted)
        else execSubmit s o

/-- Run the engine over a sequence of intents from a given state. -/
def runFrom (cfg : EngineConfig) (s : EngineState) : List Intent → EngineState
  | [] => s
  | i :: is => runFrom cfg (processIntent cfg s i).1 is

/-- The intent an audit event records, when it records one: Accept and
Reject records carry the submitted order, Cancel records carry the
cancelled id; Trade and Halt records are consequences, not intents. -/
def eventIntent : Event → Option Intent
  | .accept o => some (.submit o)
  | .reject o _ => some (.submit o)
  | .cancelOk id => some (.cancel id)
  | .cancelNoop id => some (.cancel id)
  | .trade _ => none
  | .halt => none

/-- Modelled from the spec: recover the intent stream from the audit
log, for replay from the empty state. -/
def intentsOfLog (log : List AuditRecord) : List Intent :=
  log.filterMap (fun r => eventIntent r.event)

/-! ### Structural lemmas about the matching loop -/

/-- Every order left on the matched side descends from an order that was
there before: same id, same price, remaining no larger. -/
theorem matchLoop_mem {tid : Nat} {side : Side} {ty : OrderType} :
    ∀ (opp : List Resting) (rem : Nat) (x : Resting),
      x ∈ (matchLoop tid side ty rem opp).2.1 →
      ∃ y ∈ opp, x.orderId = y.orderId ∧ x.price = y.price ∧ x.remaining ≤ y.remaining := by
  intro opp
  induction opp with
  | nil => intro rem x hx; simp [matchLoop] at hx
  | cons r t ih =>
    intro rem x hx
    simp only [matchLoop] at hx
    split_ifs at hx with h0 hacc hfull
    · have hx' : x ∈ r :: t := hx
      rcases List.mem_cons.mp hx' with h | h
      · exact ⟨r, List.mem_cons_self r t, by simp [h]⟩
      · exact ⟨x, List.mem_cons_of_mem r h, rfl, rfl, le_refl _⟩
    · have hx' : x ∈ (matchLoop tid side ty (rem - min rem r.remaining) t).2.1 := hx
      obtain ⟨y, hy, hprop⟩ := ih _ x hx'
      exact ⟨y, List.mem_cons_of_mem r hy, hprop⟩
    · have hx' : x ∈ ({ r with remaining := r.remaining - min rem r.remaining } :: t) := hx
      rcases List.mem_cons.mp hx' with h | h
      · refine ⟨r, List.mem_cons_self r t, ?_⟩
        subst h
        exact ⟨rfl, rfl, Nat.sub_le _ _⟩
      · exact ⟨x, List.mem_cons_of_mem r h, rfl, rfl, le_refl _⟩
    · have hx' : x ∈ r :: t := hx
      rcases List.mem_cons.mp hx' with h | h
      · exact ⟨r, List.mem_cons_self r t, by simp [h]⟩
      · exact ⟨x, List.mem_cons_of_mem r h, rfl, rfl, le_refl _⟩

/-- Matching preserves any pairwise price relation on the matched side:
it only drops front orders and reduces the first survivor's quantity. -/
theorem matchLoop_pairwise {tid : Nat} {side : Side} {ty : OrderType}
    (P : Nat → Nat → Prop) :
    ∀ (opp : List Resting) (rem : Nat),
      List.Pairwise (fun a c => P a.price c.price) opp →
      List.Pairwise (fun a c => P a.price c.price) (matchLoop tid side ty rem opp).2.1 := by
  intro opp
  induction opp with
  | nil => intro rem _; simp [matchLoop]
  | cons r t ih =>
    intro rem hp
    obtain ⟨hr, ht⟩ := List.pairwise_cons.mp hp
    simp only [matchLoop]
    split_ifs with h0 hacc hfull
    · exact hp
    · exact ih _ ht
    · show List.Pairwise _ ({ r with remaining := r.remaining - min rem r.remaining } :: t)
      exact List.pairwise_cons.mpr ⟨fun x hx => hr x hx, ht⟩
    · exact hp

/-- Matching preserves positivity of the remaining quantities on the
matched side: a partially consumed survivor keeps a positive remainder. -/
theorem matchLoop_pos {tid : Nat} {side : Side} {ty : OrderType} :
    ∀ (opp : List Resting) (rem : Nat),
      (∀ x ∈ opp, 0 < x.remaining) →
      ∀ x ∈ (matchLoop tid side ty rem opp).2.1, 0 < x.remaining := by
  intro opp
  induction opp with
  | nil => intro rem _ x hx; simp [matchLoop] at hx
  | cons r t ih =>
    intro rem hpos x hx
    simp only [matchLoop] at hx
    split_ifs at hx with h0 hacc hfull
    · exact hpos x hx
    · have hx' : x ∈ (matchLoop tid side ty (rem - min rem r.remaining) t).2.1 := hx
      exact ih _ (fun y hy => hpos y (List.mem_cons_of_mem r hy)) x hx'
    · have hx' : x ∈ ({ r with remaining := r.remaining - min rem r.remaining } :: t) := hx
      rcases List.mem_cons.mp hx' with h | h
      · subst h
        have hlt : rem < r.remaining := Nat.lt_of_not_le hfull
        have h0' : rem ≠ 0 := h0
        simp only
        omega
      · exact hpos x (List.mem_cons_of_mem r h)
    · exact hpos x hx

/-- When the incoming order still has remaining quantity after matching,
every survivor on the matched side is at an unacceptable price — all
acceptable opposite liquidity was exhausted.  Needs the side sorted by
price priority (`P` the along-the-list price relation) and acceptability
antitone along it. -/
theorem matchLoop_unacc {tid : Nat} {side : Side} {ty : OrderType}
    {P : Nat → Nat → Prop}
    (hmono : ∀ a c, P a c → acceptable side ty c = true → acceptable side ty a = true) :
    ∀ (opp : List Resting) (rem : Nat),
      List.Pairwise (fun a c => P a.price c.price) opp →
      (matchLoop tid side ty rem opp).2.2 ≠ 0 →
      ∀ x ∈ (matchLoop tid side ty rem opp).2.1, acceptable side ty x.price = false := by
  intro opp
  induction opp with
  | nil => intro rem _ _ x hx; simp [matchLoop] at hx
  | cons r t ih =>
    intro rem hp hrem x hx
    obtain ⟨hr, ht⟩ := List.pairwise_cons.mp hp
    simp only [matchLoop] at hrem hx
    split_ifs at hrem hx with h0 hacc hfull
    · exact absurd h0 hrem
    · have hx' : x ∈ (matchLoop tid side ty (rem - min rem r.remaining) t).2.1 := hx
      exact ih _ ht hrem x hx'
    · exfalso
      have hlt : rem < r.remaining := Nat.lt_of_not_le hfull
      have : rem - min rem r.remaining = 0 := by omega
      exact hrem this
    · have hx' : x ∈ r :: t := hx
      rcases List.mem_cons.mp hx' with h | h
      · subst h; exact Bool.eq_false_iff.mpr hacc
      · refine Bool.eq_false_iff.mpr (fun habs => hacc ?_)
        exact hmono r.price x.price (hr x h) habs

/-- Conservation of quantity in aggregate: the traded total accounts
exactly for the incoming order's decrease and for the matched side's
decrease. -/
theorem matchLoop_sums {tid : Nat} {side : Side} {ty : OrderType} :
    ∀ (opp : List Resting) (rem : Nat),
      sumQty (matchLoop tid side ty rem opp).1 + (matchLoop tid side ty rem opp).2.2 = rem ∧
      sumQty (matchLoop tid side ty rem opp).1 + sumRem (matchLoop tid side ty rem opp).2.1 =
        sumRem opp := by
  intro opp
  induction opp with
  | nil => intro rem; simp [matchLoop, sumQty, sumRem]
  | cons r t ih =>
    intro rem
    simp only [matchLoop]
    split_ifs with h0 hacc hfull
    · simp [sumQty]
    · obtain ⟨ih1, ih2⟩ := ih (rem - min rem r.remaining)
      constructor
      · show sumQty (⟨r.orderId, tid, r.price, min rem r.remaining⟩ ::
            (matchLoop tid side ty (rem - min rem r.remaining) t).1) + _ = rem
        simp only [sumQty, List.map_cons, List.sum_cons] at ih1 ⊢
        omega
      · show sumQty (⟨r.orderId, tid, r.price, min rem r.remaining⟩ :: _) + _ = sumRem (r :: t)
        simp only [sumQty, sumRem, List.map_cons, List.sum_cons] at ih1 ih2 ⊢
        omega
    · have hlt : rem < r.remaining := Nat.lt_of_not_le hfull
      constructor
      · show sumQty [⟨r.orderId, tid, r.price, min rem r.remaining⟩] + (rem - min rem r.remaining) = rem
        simp only [sumQty, List.map_cons, List.map_nil, List.sum_cons, List.sum_nil]
        omega
      · show sumQty [⟨r.orderId, tid, r.price, min rem r.remaining⟩] +
            sumRem ({ r with remaining := r.remaining - min rem r.remaining } :: t) = sumRem (r :: t)
        simp only [sumQty, sumRem, List.map_cons, List.map_nil, List.sum_cons, List.sum_nil]
        omega
    · simp [sumQty]

/-- The makers of the produced trades are exactly the front resting
orders of the matched side, in arrival order. -/
theorem matchLoop_makers {tid : Nat} {side : Side} {ty : OrderType} :
    ∀ (opp : List Resting) (rem : Nat),
      (matchLoop tid side ty rem opp).1.map Trade.makerOrderId =
        (opp.take (matchLoop tid side ty rem opp).1.length).map Resting.orderId := by
  intro opp
  induction opp with
  | nil => intro rem; simp [matchLoop]
  | cons r t ih =>
    intro rem
    simp only [matchLoop]
    split_ifs with h0 hacc hfull
    · simp
    · show (Trade.mk r.orderId tid r.price (min rem r.remaining) ::
          (matchLoop tid side ty (rem - min rem r.remaining) t).1).map Trade.makerOrderId = _
      simp only [List.map_cons, List.length_cons, List.take_succ_cons]
      exact congrArg (r.orderId :: ·) (ih _)
    · simp
    · simp

/-- Matching consumes the matched side strictly from the front: its
effect on that side is exactly the front consumption of the traded
total.  Resting orders must have positive remaining quantity. -/
theorem matchLoop_consumeFront {tid : Nat} {side : Side} {ty : OrderType} :
    ∀ (opp : List Resting) (rem : Nat),
      (∀ x ∈ opp, 0 < x.remaining) →
      (matchLoop tid side ty rem opp).2.1 =
        consumeFront (sumQty (matchLoop tid side ty rem opp).1) opp := by
  intro opp
  induction opp with
  | nil => intro rem _; simp [matchLoop, sumQty, consumeFront]
  | cons r t ih =>
    intro rem hpos
    have hposr : 0 < r.remaining := hpos r (List.mem_cons_self r t)
    simp only [matchLoop]
    split_ifs with h0 hacc hfull
    · simp [sumQty, consumeFront]
    · have heq : min rem r.remaining = r.remaining := Nat.min_eq_right hfull
      show (matchLoop tid side ty (rem - min rem r.remaining) t).2.1 =
        consumeFront (sumQty (Trade.mk r.orderId tid r.price (min rem r.remaining) ::
          (matchLoop tid side ty (rem - min rem r.remaining) t).1)) (r :: t)
      rw [heq]
      simp only [sumQty, List.map_cons, List.sum_cons, consumeFront]
      rw [if_neg (by omega), if_pos (by omega)]
      have h2 : r.remaining + ((matchLoop tid side ty (rem - r.remaining) t).1.map
          Trade.quantity).sum - r.remaining =
          ((matchLoop tid side ty (rem - r.remaining) t).1.map Trade.quantity).sum := by
        omega
      rw [h2]
      exact ih _ (fun y hy => hpos y (List.mem_cons_of_mem r hy))
    · have hlt : rem < r.remaining := Nat.lt_of_not_le hfull
      have heq : min rem r.remaining = rem := Nat.min_eq_left (Nat.le_of_lt hlt)
      show ({ r with remaining := r.remaining - min rem r.remaining } :: t) =
        consumeFront (sumQty [Trade.mk r.orderId tid r.price (min rem r.remaining)]) (r :: t)
      simp only [sumQty, List.map_cons, List.map_nil, List.sum_cons, List.sum_nil, consumeFront]
      rw [heq]
      rw [if_neg (by omega), if_neg (by omega)]
      simp
    · simp [sumQty, consumeFront]

/-- Membership in an ask-side insertion: the new order or an old one. -/
theorem insertAsk_mem {o x : Resting} :
    ∀ l : List Resting, x ∈ insertAsk o l → x = o ∨ x ∈ l := by
  intro l
  induction l with
  | nil => intro hx; simp [insertAsk] at hx; exact Or.inl hx
  | cons r t ih =>
    intro hx
    simp only [insertAsk] at hx
    split_ifs at hx with h
    · rcases List.mem_cons.mp hx with h1 | h1
      · exact Or.inr (by simp [h1])
      · rcases ih h1 with h2 | h2
        · exact Or.inl h2
        · exact Or.inr (List.mem_cons_of_mem r h2)
    · rcases List.mem_cons.mp hx with h1 | h1
      · exact Or.inl h1
      · exact Or.inr h1

/-- Membership in a bid-side insertion: the new order or an old one. -/
theorem insertBid_mem {o x : Resting} :
    ∀ l : List Resting, x ∈ insertBid o l → x = o ∨ x ∈ l := by
  intro l
  induction l with
  | nil => intro hx; simp [insertBid] at hx; exact Or.inl hx
  | cons r t ih =>
    intro hx
    simp only [insertBid] at hx
    split_ifs at hx with h
    · rcases List.mem_cons.mp hx with h1 | h1
      · exact Or.inr (by simp [h1])
      · rcases ih h1 with h2 | h2
        · exact Or.inl h2
        · exact Or.inr (List.mem_cons_of_mem r h2)
    · rcases List.mem_cons.mp hx with h1 | h1
      · exact Or.inl h1
      · exact Or.inr h1

/-- The new order is in the insertion (ask side). -/
theorem insertAsk_self (o : Resting) : ∀ l : List Resting, o ∈ insertAsk o l := by
  intro l
  induction l with
  | nil => simp [insertAsk]
  | cons r t ih =>
    simp only [insertAsk]
    split_ifs with h
    · exact List.mem_cons_of_mem r ih
    · exact List.mem_cons_self o _

/-- The new order is in the insertion (bid side). -/
theorem insertBid_self (o : Resting) : ∀ l : List Resting, o ∈ insertBid o l := by
  intro l
  induction l with
  | nil => simp [insertBid]
  | cons r t ih =>
    simp only [insertBid]
    split_ifs with h
    · exact List.mem_cons_of_mem r ih
    · exact List.mem_cons_self o _

/-- Ask-side insertion keeps the side sorted ascending by price. -/
theorem insertAsk_pairwise {o : Resting} :
    ∀ l : List Resting,
      List.Pairwise (fun a c => a.price ≤ c.price) l →
      List.Pairwise (fun a c => a.price ≤ c.price) (insertAsk o l) := by
  intro l
  induction l with
  | nil => intro _; simp [insertAsk]
  | cons r t ih =>
    intro hp
    obtain ⟨hr, ht⟩ := List.pairwise_cons.mp hp
    simp only [insertAsk]
    split_ifs with h
    · refine List.pairwise_cons.mpr ⟨?_, ih ht⟩
      intro x hx
      rcases insertAsk_mem t hx with h1 | h1
      · subst h1; exact h
      · exact hr x h1
    · refine List.pairwise_cons.mpr ⟨?_, hp⟩
      intro x hx
      rcases List.mem_cons.mp hx with h1 | h1
      · subst h1; exact Nat.le_of_lt (Nat.lt_of_not_le h)
      · exact Nat.le_trans (Nat.le_of_lt (Nat.lt_of_not_le h)) (hr x h1)

/-- Bid-side insertion keeps the side sorted descending by price. -/
theorem insertBid_pairwise {o : Resting} :
    ∀ l : List Resting,
      List.Pairwise (fun a c => c.price ≤ a.price) l →
      List.Pairwise (fun a c => c.price ≤ a.price) (insertBid o l) := by
  intro l
  induction l with
  | nil => intro _; simp [insertBid]
  | cons r t ih =>
    intro hp
    obtain ⟨hr, ht⟩ := List.pairwise_cons.mp hp
    simp only [insertBid]
    split_ifs with h
    · refine List.pairwise_cons.mpr ⟨?_, ih ht⟩
      intro x hx
      rcases insertBid_mem t hx with h1 | h1
      · subst h1; exact h
      · exact hr x h1
    · refine List.pairwise_cons.mpr ⟨?_, hp⟩
      intro x hx
      rcases List.mem_cons.mp hx with h1 | h1
      · subst h1; exact Nat.le_of_lt (Nat.lt_of_not_le h)
      · exact Nat.le_trans (hr x h1) (Nat.le_of_lt (Nat.lt_of_not_le h))

/-! ### The book invariant and its preservation -/

/-- The book never holds a bid price at or above a resting ask price. -/
def Uncrossed (b : OrderBook) : Prop :=
  ∀ x ∈ b.bids, ∀ y ∈ b.asks, x.price < y.price

/-- The structural invariant of the book: asks sorted ascending by price,
bids descending, all remaining quantities positive, and the book
uncrossed. -/
def BookInv (b : OrderBook) : Prop :=
  List.Pairwise (fun a c => a.price ≤ c.price) b.asks ∧
  List.Pairwise (fun a c => c.price ≤ a.price) b.bids ∧
  (∀ x ∈ b.asks, 0 < x.remaining) ∧
  (∀ x ∈ b.bids, 0 < x.remaining) ∧
  Uncrossed b

/-- A buy's acceptability is antitone going up the ask list. -/
theorem acceptable_buy_mono (ty : OrderType) :
    ∀ a c, a ≤ c → acceptable .buy ty c = true → acceptable .buy ty a = true := by
  intro a c hac h
  cases ty with
  | market => rfl
  | limit p =>
    simp only [acceptable, decide_eq_true_eq] at h ⊢
    exact Nat.le_trans hac h

/-- A sell's acceptability is antitone going down the bid list. -/
theorem acceptable_sell_mono (ty : OrderType) :
    ∀ a c, c ≤ a → acceptable .sell ty c = true → acceptable .sell ty a = true := by
  intro a c hac h
  cases ty with
  | market => rfl
  | limit p =>
    simp only [acceptable, decide_eq_true_eq] at h ⊢
    exact Nat.le_trans h hac

/-- `submit` preserves the book invariant. -/
theorem submitOrder_inv (b : OrderBook) (o : Order) (h : BookInv b) :
    BookInv (submitOrder b o).2.1 := by
  obtain ⟨hasrt, hbsrt, hapos, hbpos, hunx⟩ := h
  obtain ⟨oid, oside, oty, oqty⟩ := o
  cases oside with
  | buy =>
    cases oty with
    | market =>
      simp only [submitOrder]
      split_ifs with hrem <;>
      · refine ⟨matchLoop_pairwise (fun a c => a ≤ c) _ _ hasrt, hbsrt, matchLoop_pos _ _ hapos, hbpos, ?_⟩
        intro x hx y hy
        obtain ⟨y', hy', _, hyp, _⟩ := matchLoop_mem _ _ y hy
        rw [hyp]
        exact hunx x hx y' hy'
    | limit p =>
      simp only [submitOrder]
      split_ifs with hrem
      · refine ⟨matchLoop_pairwise (fun a c => a ≤ c) _ _ hasrt, hbsrt, matchLoop_pos _ _ hapos, hbpos, ?_⟩
        intro x hx y hy
        obtain ⟨y', hy', _, hyp, _⟩ := matchLoop_mem _ _ y hy
        rw [hyp]
        exact hunx x hx y' hy'
      · refine ⟨matchLoop_pairwise (fun a c => a ≤ c) _ _ hasrt, insertBid_pairwise _ hbsrt,
          matchLoop_pos _ _ hapos, ?_, ?_⟩
        · intro x hx
          rcases insertBid_mem _ hx with h1 | h1
          · subst h1; exact Nat.pos_of_ne_zero hrem
          · exact hbpos x h1
        · intro x hx y hy
          rcases insertBid_mem _ hx with h1 | h1
          · subst h1
            have hun := matchLoop_unacc (acceptable_buy_mono (.limit p)) b.asks oqty
              hasrt hrem y hy
            simp only [acceptable, decide_eq_false_iff_not] at hun
            exact Nat.lt_of_not_le hun
          · obtain ⟨y', hy', _, hyp, _⟩ := matchLoop_mem _ _ y hy
            rw [hyp]
            exact hunx x h1 y' hy'
  | sell =>
    cases oty with
    | market =>
      simp only [submitOrder]
      split_ifs with hrem <;>
      · refine ⟨hasrt, matchLoop_pairwise (fun a c => c ≤ a) _ _ hbsrt, hapos, matchLoop_pos _ _ hbpos, ?_⟩
        intro x hx y hy
        obtain ⟨x', hx', _, hxp, _⟩ := matchLoop_mem _ _ x hx
        rw [hxp]
        exact hunx x' hx' y hy
    | limit p =>
      simp only [submitOrder]
      split_ifs with hrem
      · refine ⟨hasrt, matchLoop_pairwise (fun a c => c ≤ a) _ _ hbsrt, hapos, matchLoop_pos _ _ hbpos, ?_⟩
        intro x hx y hy
        obtain ⟨x', hx', _, hxp, _⟩ := matchLoop_mem _ _ x hx
        rw [hxp]
        exact hunx x' hx' y hy
      · refine ⟨insertAsk_pairwise _ hasrt, matchLoop_pairwise (fun a c => c ≤ a) _ _ hbsrt, ?_,
          matchLoop_pos _ _ hbpos, ?_⟩
        · intro y hy
          rcases insertAsk_mem _ hy with h1 | h1
          · subst h1; exact Nat.pos_of_ne_zero hrem
          · exact hapos y h1
        · intro x hx y hy
          rcases insertAsk_mem _ hy with h1 | h1
          · subst h1
            have hun := matchLoop_unacc (acceptable_sell_mono (.limit p)) b.bids oqty
              hbsrt hrem x hx
            simp only [acceptable, decide_eq_false_iff_not] at hun
            exact Nat.lt_of_not_le hun
          · obtain ⟨x', hx', _, hxp, _⟩ := matchLoop_mem _ _ x hx
            rw [hxp]
            exact hunx x' hx' y h1

/-- Cancelling (filtering an id out of both sides) preserves the book
invariant. -/
theorem removeOrder_inv (b : OrderBook) (id : Nat) (h : BookInv b) :
    BookInv (removeOrder b id) := by
  obtain ⟨hasrt, hbsrt, hapos, hbpos, hunx⟩ := h
  refine ⟨List.Pairwise.sublist (List.filter_sublist _) hasrt,
    List.Pairwise.sublist (List.filter_sublist _) hbsrt,
    ?_, ?_, ?_⟩
  · intro x hx; exact hapos x (List.mem_of_mem_filter hx)
  · intro x hx; exact hbpos x (List.mem_of_mem_filter hx)
  · intro x hx y hy
    exact hunx x (List.mem_of_mem_filter hx) y (List.mem_of_mem_filter hy)

/-- Appending an audit record does not touch the book. -/
theorem appendEvent_book (s : EngineState) (e : Event) :
    (appendEvent s e).book = s.book := rfl

/-- Appending audit records does not touch the book. -/
theorem appendEvents_book (s : EngineState) :
    ∀ es : List Event, (appendEvents s es).book = s.book := by
  suffices h : ∀ (es : List Event) (s : EngineState), (appendEvents s es).book = s.book by
    intro es; exact h es s
  intro es
  induction es with
  | nil => intro s; rfl
  | cons e es ih => intro s; exact (ih (appendEvent s e)).trans rfl

/-- The book after an accepted submission is the matched book. -/
theorem execSubmit_book (s : EngineState) (o : Order) :
    (execSubmit s o).1.book = (submitOrder s.book o).2.1 := by
  simp only [execSubmit, appendEvents_book]

/-- Processing any intent preserves the book invariant. -/
theorem processIntent_inv (cfg : EngineConfig) (s : EngineState) (i : Intent)
    (h : BookInv s.book) : BookInv (processIntent cfg s i).1.book := by
  cases i with
  | cancel id =>
    cases hl : List.lookup id s.statuses with
    | none => simp only [processIntent, hl]; exact h
    | some st =>
      simp only [processIntent, hl]
      split_ifs with hterm
      · exact h
      · show BookInv (appendEvent _ _).book
        rw [appendEvent_book]
        exact removeOrder_inv _ _ h
  | submit o =>
    cases hrc : cfg.riskCheck o with
    | some code => simp only [processIntent, hrc]; exact h
    | none =>
      cases hbr : s.breaker with
      | Halted =>
        simp only [processIntent, hrc, hbr]
        split_ifs with hm
        · exact h
        · rw [execSubmit_book]
          exact submitOrder_inv _ _ h
      | Open =>
        simp only [processIntent, hrc, hbr]
        split_ifs with ht
        · exact h
        · rw [execSubmit_book]
          exact submitOrder_inv _ _ h

/-- Running any intent sequence preserves the book invariant. -/
theorem runFrom_inv (cfg : EngineConfig) :
    ∀ (is : List Intent) (s : EngineState),
      BookInv s.book → BookInv (runFrom cfg s is).book := by
  intro is
  induction is with
  | nil => intro s h; exact h
  | cons i is ih =>
    intro s h
    exact ih _ (processIntent_inv cfg s i h)

/-! ### The audit log records the intent stream -/

/-- Appending an audit record does not touch the trade history. -/
theorem appendEvent_trades (s : EngineState) (e : Event) :
    (appendEvent s e).trades = s.trades := rfl

/-- Appending audit records does not touch the trade history. -/
theorem appendEvents_trades (s : EngineState) :
    ∀ es : List Event, (appendEvents s es).trades = s.trades := by
  suffices h : ∀ (es : List Event) (s : EngineState), (appendEvents s es).trades = s.trades by
    intro es; exact h es s
  intro es
  induction es with
  | nil => intro s; rfl
  | cons e es ih => intro s; exact (ih (appendEvent s e)).trans rfl

/-- Appending an audit record does not touch the status index. -/
theorem appendEvent_statuses (s : EngineState) (e : Event) :
    (appendEvent s e).statuses = s.statuses := rfl

/-- Appending audit records does not touch the status index. -/
theorem appendEvents_statuses (s : EngineState) :
    ∀ es : List Event, (appendEvents s es).statuses = s.statuses := by
  suffices h : ∀ (es : List Event) (s : EngineState),
      (appendEvents s es).statuses = s.statuses by
    intro es; exact h es s
  intro es
  induction es with
  | nil => intro s; rfl
  | cons e es ih => intro s; exact (ih (appendEvent s e)).trans rfl

/-- Appending one audit record appends one log entry. -/
theorem appendEvent_log (s : EngineState) (e : Event) :
    (appendEvent s e).log =
      s.log ++ [⟨s.nextSeq, e, lastHash s.log, chainHash (lastHash s.log) (eventCode e)⟩] := rfl

/-- Intent extraction distributes over log concatenation. -/
theorem intentsOfLog_append (l₁ l₂ : List AuditRecord) :
    intentsOfLog (l₁ ++ l₂) = intentsOfLog l₁ ++ intentsOfLog l₂ :=
  List.filterMap_append l₁ l₂ _

/-- Appending one audit record appends that event's intent, if any. -/
theorem intentsOfLog_appendEvent (s : EngineState) (e : Event) :
    intentsOfLog (appendEvent s e).log = intentsOfLog s.log ++ (eventIntent e).toList := by
  rw [appendEvent_log, intentsOfLog_append]
  cases e <;> rfl

/-- Appending audit records appends their intents. -/
theorem intentsOfLog_appendEvents (s : EngineState) :
    ∀ es : List Event,
      intentsOfLog (appendEvents s es).log =
        intentsOfLog s.log ++ es.filterMap eventIntent := by
  suffices h : ∀ (es : List Event) (s : EngineState),
      intentsOfLog (appendEvents s es).log =
        intentsOfLog s.log ++ es.filterMap eventIntent by
    intro es; exact h es s
  intro es
  induction es with
  | nil => intro s; simp [appendEvents]
  | cons e es ih =>
    intro s
    show intentsOfLog (appendEvents (appendEvent s e) es).log = _
    rw [ih (appendEvent s e), intentsOfLog_appendEvent]
    cases he : eventIntent e <;> simp [List.filterMap_cons, he]

/-- Trade records carry no intent. -/
theorem filterMap_eventIntent_trades (ts : List Trade) :
    (ts.map Event.trade).filterMap eventIntent = [] := by
  induction ts with
  | nil => rfl
  | cons t ts ih => simp [List.filterMap_cons, eventIntent, ih]

/-- Every processed intent appends exactly one intent-bearing audit
record, so the log replays to the intent stream: processing one intent
extends the recovered stream by exactly that intent. -/
theorem processIntent_intents (cfg : EngineConfig) (s : EngineState) (i : Intent) :
    intentsOfLog (processIntent cfg s i).1.log = intentsOfLog s.log ++ [i] := by
  cases i with
  | cancel id =>
    cases hl : List.lookup id s.statuses with
    | none =>
      simp only [processIntent, hl]
      rw [intentsOfLog_appendEvent]
      rfl
    | some st =>
      simp only [processIntent, hl]
      split_ifs with hterm
      · rw [intentsOfLog_appendEvent]; rfl
      · rw [intentsOfLog_appendEvent]; rfl
  | submit o =>
    cases hrc : cfg.riskCheck o with
    | some code =>
      simp only [processIntent, hrc]
      rw [intentsOfLog_appendEvent]
      rfl
    | none =>
      cases hbr : s.breaker with
      | Halted =>
        simp only [processIntent, hrc, hbr]
        split_ifs with hm
        · rw [intentsOfLog_appendEvent]; rfl
        · show intentsOfLog (execSubmit s o).1.log = _
          simp only [execSubmit]
          rw [intentsOfLog_appendEvents]
          simp [List.filterMap_cons, eventIntent, filterMap_eventIntent_trades]
      | Open =>
        simp only [processIntent, hrc, hbr]
        split_ifs with ht
        · rw [intentsOfLog_appendEvent, intentsOfLog_appendEvent]
          simp [eventIntent]
        · show intentsOfLog (execSubmit s o).1.log = _
          simp only [execSubmit]
          rw [intentsOfLog_appendEvents]
          simp [List.filterMap_cons, eventIntent, filterMap_eventIntent_trades]

/-- Running a sequence of intents appends exactly that sequence to the
stream recovered from the log. -/
theorem runFrom_intents (cfg : EngineConfig) :
    ∀ (is : List Intent) (s : EngineState),
      intentsOfLog (runFrom cfg s is).log = intentsOfLog s.log ++ is := by
  intro is
  induction is with
  | nil => intro s; simp [runFrom]
  | cons i is ih =>
    intro s
    show intentsOfLog (runFrom cfg (processIntent cfg s i).1 is).log = _
    rw [ih, processIntent_intents]
    simp

/-! ### Per-trade accounting -/

/-- The side of the book an order would rest on. -/
def sideOrders (b : OrderBook) : Side → List Resting
  | .buy => b.bids
  | .sell => b.asks

/-- An id held by no order in the list has remaining `0` on record. -/
theorem remainingIn_eq_zero {l : List Resting} {id : Nat}
    (h : ∀ y ∈ l, y.orderId ≠ id) : remainingIn l id = 0 := by
  have hf : l.find? (fun r => r.orderId == id) = none := by
    rw [List.find?_eq_none]
    intro y hy
    simp only [beq_iff_eq]
    exact h y hy
  simp [remainingIn, hf]

/-- Record lookup at the head of the list. -/
theorem remainingIn_cons_self {x : Resting} {l : List Resting} :
    remainingIn (x :: l) x.orderId = x.remaining := by
  simp [remainingIn, List.find?_cons_of_pos]

/-- Prefix sum of trade quantities, successor step. -/
theorem sumQty_take_succ :
    ∀ (ts : List Trade) (i : Nat) (tr : Trade), ts.get? i = some tr →
      sumQty (ts.take (i + 1)) = sumQty (ts.take i) + tr.quantity := by
  intro ts
  induction ts with
  | nil => intro i tr h; simp at h
  | cons u us ih =>
    intro i tr h
    cases i with
    | zero =>
      simp only [List.get?] at h
      cases h
      simp [sumQty, Nat.add_comm]
    | succ j =>
      simp only [List.get?] at h
      have := ih j tr h
      simp only [List.take_succ_cons, sumQty, List.map_cons, List.sum_cons] at this ⊢
      omega

/-- Prefix sums of trade quantities are bounded by the total. -/
theorem sumQty_take_le (ts : List Trade) (i : Nat) :
    sumQty (ts.take i) ≤ sumQty ts := by
  have : (ts.take i).Sublist ts := List.take_sublist i ts
  simp only [sumQty]
  exact List.Sublist.sum_le_sum (this.map Trade.quantity) (fun _ _ => Nat.zero_le _)

/-- Per-trade maker accounting: the `i`-th trade's maker is the `i`-th
front resting order, the trade prints at that order's price, and the
trade quantity is exactly the decrease of the maker's remaining quantity
as recorded in the book (a fully consumed maker is removed, recording
`0`).  Needs positive remaining quantities and distinct resting order
ids. -/
theorem matchLoop_maker_delta {tid : Nat} {side : Side} {ty : OrderType} :
    ∀ (opp : List Resting) (rem : Nat),
      (∀ x ∈ opp, 0 < x.remaining) →
      (opp.map Resting.orderId).Nodup →
      ∀ (i : Nat) (tr : Trade), (matchLoop tid side ty rem opp).1.get? i = some tr →
        ∃ m, opp.get? i = some m ∧ tr.makerOrderId = m.orderId ∧ tr.price = m.price ∧
          tr.quantity + remainingIn (matchLoop tid side ty rem opp).2.1 m.orderId =
            m.remaining := by
  intro opp
  induction opp with
  | nil => intro rem _ _ i tr h; simp [matchLoop] at h
  | cons r t ih =>
    intro rem hpos hnd i tr htr
    obtain ⟨hrni, hndt⟩ := List.nodup_cons.mp hnd
    simp only [matchLoop] at htr ⊢
    split_ifs at htr ⊢ with h0 hacc hfull
    · simp at htr
    · cases i with
      | zero =>
        have htr' : some (Trade.mk r.orderId tid r.price (min rem r.remaining)) = some tr := htr
        cases htr'
        refine ⟨r, rfl, rfl, rfl, ?_⟩
        have hq : min rem r.remaining = r.remaining := Nat.min_eq_right hfull
        have hzero : remainingIn (matchLoop tid side ty (rem - min rem r.remaining) t).2.1
            r.orderId = 0 := by
          refine remainingIn_eq_zero ?_
          intro y hy
          obtain ⟨y', hy', hid, _, _⟩ := matchLoop_mem _ _ y hy
          rw [hid]
          intro habs
          exact hrni (habs ▸ List.mem_map_of_mem Resting.orderId hy')
        rw [hq] at hzero
        simp [hzero, hq]
      | succ j =>
        have htr' : (matchLoop tid side ty (rem - min rem r.remaining) t).1.get? j =
            some tr := htr
        obtain ⟨m, hm, h1, h2, h3⟩ := ih _ (fun y hy => hpos y (List.mem_cons_of_mem r hy))
          hndt j tr htr'
        exact ⟨m, hm, h1, h2, h3⟩
    · cases i with
      | zero =>
        have htr' : some (Trade.mk r.orderId tid r.price (min rem r.remaining)) = some tr := by
          exact htr
        cases htr'
        refine ⟨r, rfl, rfl, rfl, ?_⟩
        have hlt : rem < r.remaining := Nat.lt_of_not_le hfull
        have hq : min rem r.remaining = rem := Nat.min_eq_left (Nat.le_of_lt hlt)
        have hhead : remainingIn ({ r with remaining := r.remaining - min rem r.remaining } :: t)
            r.orderId = r.remaining - min rem r.remaining := remainingIn_cons_self
        rw [hq] at hhead
        simp only [hq, hhead]
        omega
      | succ j =>
        have htr' : ([] : List Trade).get? j = some tr := htr
        simp at htr'
    · simp at htr

/-- Submitting a non-marketable limit order produces no trades and rests
the whole order on its own side. -/
theorem submitOrder_not_marketable (b : OrderBook) (o : Order) (p : Nat)
    (hm : marketable b o = false) (hty : o.otype = .limit p) (hq : 0 < o.quantity) :
    (submitOrder b o).1 = [] ∧
    (submitOrder b o).2.1 =
      (match o.side with
      | .buy => ⟨insertBid ⟨o.orderId, p, o.quantity⟩ b.bids, b.asks⟩
      | .sell => ⟨b.bids, insertAsk ⟨o.orderId, p, o.quantity⟩ b.asks⟩) := by
  obtain ⟨oid, oside, oty, oqty⟩ := o
  simp only at hty
  subst hty
  have hq' : oqty ≠ 0 := Nat.pos_iff_ne_zero.mp hq
  cases oside with
  | buy =>
    cases hasks : b.asks with
    | nil =>
      have hml : matchLoop oid Side.buy (.limit p) oqty [] = ([], [], oqty) := by
        simp [matchLoop]
      simp [submitOrder, hasks, hml, hq']
    | cons r t =>
      have hacc : acceptable .buy (.limit p) r.price = false := by
        simpa [marketable, bestOpp, hasks] using hm
      have hml : matchLoop oid Side.buy (.limit p) oqty (r :: t) = ([], r :: t, oqty) := by
        simp [matchLoop, hacc, hq']
      simp [submitOrder, hasks, hml, hq']
  | sell =>
    cases hbids : b.bids with
    | nil =>
      have hml : matchLoop oid Side.sell (.limit p) oqty [] = ([], [], oqty) := by
        simp [matchLoop]
      simp [submitOrder, hbids, hml, hq']
    | cons r t =>
      have hacc : acceptable .sell (.limit p) r.price = false := by
        simpa [marketable, bestOpp, hbids] using hm
      have hml : matchLoop oid Side.sell (.limit p) oqty (r :: t) = ([], r :: t, oqty) := by
        simp [matchLoop, hacc, hq']
      simp [submitOrder, hbids, hml, hq']

/-- After removal, no order in the book carries the removed id. -/
theorem removeOrder_not_mem (b : OrderBook) (id : Nat) :
    ∀ r ∈ (removeOrder b id).bids ++ (removeOrder b id).asks, r.orderId ≠ id := by
  intro r hr
  rcases List.mem_append.mp hr with h | h
  · have := List.of_mem_filter h
    simpa using this
  · have := List.of_mem_filter h
    simpa using this

/-- Trades recorded by an accepted submission extend the history by the
matching cycle's trades. -/
theorem execSubmit_trades (s : EngineState) (o : Order) :
    (execSubmit s o).1.trades = s.trades ++ (submitOrder s.book o).1 := by
  simp only [execSubmit, appendEvents_trades]

/-- The synchronous response of an accepted submission reports the
matching cycle's trades. -/
theorem execSubmit_resp (s : EngineState) (o : Order) :
    (execSubmit s o).2 = .accepted (submitOrder s.book o).1 := rfl

end Engine

namespace Frontend

/-- The `status` field of a DeFi `Position`
(frontend `DeFiPortfolio.tsx`). -/
inductive PositionStatus
  | Active
  | Closing
  | Closed
  | Failed
deriving DecidableEq, Repr

/-- A DeFi `Position` (frontend `DeFiPortfolio.tsx`), restricted to the
fields the portfolio arithmetic reads; TypeScript `number` is embedded
as `ℚ`.  The remaining fields (`protocol_id`, `pool_id`, deposited and
received assets, timestamps) do not enter `getAverageAPY`. -/
structure Position where
  id : String
  value_usd : Rat
  apy : Rat
  status : PositionStatus
deriving DecidableEq, Repr

/-- `getAverageAPY` of `DeFiPortfolio`: filter the positions to the
`Active` ones, return `0` when there are none, otherwise the sum of
their `apy` fields divided by their count. -/
def getAverageAPY (positions : List Position) : Rat :=
  let activePositions := positions.filter (fun p => decide (p.status = .Active))
  if activePositions.length = 0 then 0
  else ((activePositions.map Position.apy).sum) / (activePositions.length : Rat)

/-- An `AssetAmount` entry of `NewPositionForm` (`asset_id`, `amount`);
TypeScript `number` is embedded as `ℚ`. -/
structure Asset where
  asset_id : String
  amount : Rat
deriving DecidableEq, Repr

/-- The component state of `NewPositionForm` read and written by
`handleSubmit`: the selections, the per-asset amounts, and the
`loading`/`success`/`error` hooks. -/
structure FormState where
  selectedProtocol : String
  selectedPool : String
  assets : List Asset
  loading : Bool
  success : Bool
  error : Option String
deriving DecidableEq, Repr

/-- The arguments of the one `DeFiService.createPosition` call
`handleSubmit` can make. -/
structure CreateCall where
  userId : String
  protocolId : String
  poolId : String
  assets : List Asset
deriving DecidableEq, Repr

/-- `handleSubmit` of `NewPositionForm`, as the synchronous function
from the component state to the state after the handler settles,
together with the `DeFiService.createPosition` call it made (if any).
Mirrors the source: return untouched unless a user, a protocol and a
pool are present (TypeScript truthiness of the selection strings is
emptiness); filter the assets to those with `amount > 0`; when none
remain, set the error message and return without calling the service;
otherwise call `createPosition` with the filtered deposits — on success
set the success flag and reset the form, on failure set the failure
error message; `loading` ends `false` either way (`finally`).  The
awaited service outcome is the parameter `serviceOk`. -/
def handleSubmit (hasUser : Bool) (userId : String) (st : FormState)
    (serviceOk : Bool) : FormState × Option CreateCall :=
  if ¬hasUser ∨ st.selectedProtocol = "" ∨ st.selectedPool = "" then (st, none)
  else
    let assetsToDeposit := st.assets.filter (fun a => decide (0 < a.amount))
    if assetsToDeposit.length = 0 then
      ({ st with error := some "Please enter at least one asset amount" }, none)
    else if serviceOk then
      ({ st with selectedProtocol := "", selectedPool := "", assets := [],
                 loading := false, success := true, error := none },
        some ⟨userId, st.selectedProtocol, st.selectedPool, assetsToDeposit⟩)
    else
      ({ st with loading := false,
                 error := some "Failed to create position. Please check your inputs and try again." },
        some ⟨userId, st.selectedProtocol, st.selectedPool, assetsToDeposit⟩)

end Frontend

/-! ## The claims -/

/-- C1: For every sequence of submitted order intents, after each matching
cycle completes the order book contains no bid price greater than or
equal to any resting ask price — running any intent sequence through the
engine from the empty initial state leaves an uncrossed book, so a
crossed book never persists past a matching cycle. -/
theorem crossed_book_never_persists (cfg : Engine.EngineConfig)
    (intents : List Engine.Intent) :
    ∀ x ∈ (Engine.runFrom cfg Engine.initState intents).book.bids,
      ∀ y ∈ (Engine.runFrom cfg Engine.initState intents).book.asks,
        x.price < y.price := by
  have hinv : Engine.BookInv Engine.initState.book := by
    refine ⟨List.Pairwise.nil, List.Pairwise.nil, ?_, ?_, ?_⟩
    · intro x hx; simp [Engine.initState] at hx
    · intro x hx; simp [Engine.initState] at hx
    · intro x hx; simp [Engine.initState] at hx
  exact (Engine.runFrom_inv cfg intents Engine.initState hinv).2.2.2.2

/-- C1 witness: after a concrete run — a resting limit sell 100@10 and
a non-crossing limit buy 60@9 — the resting bid's price is below the
resting ask's price. -/
theorem crossed_book_never_persists_witness :
    (⟨2, 9, 60⟩ : Engine.Resting).price < (⟨1, 10, 100⟩ : Engine.Resting).price :=
  crossed_book_never_persists ⟨fun _ => none, 100, 10⟩
    [.submit ⟨1, .sell, .limit 10, 100⟩, .submit ⟨2, .buy, .limit 9, 60⟩]
    ⟨2, 9, 60⟩ (by decide) ⟨1, 10, 100⟩ (by decide)

/-- C5: For every audit log produced by a run of the engine, replaying
that log from the empty state deterministically reproduces an identical
final state — in particular an identical final order book and identical
trade history: the log is a sufficient source of truth. -/
theorem audit_replay_reproduces_state (cfg : Engine.EngineConfig)
    (intents : List Engine.Intent) :
    Engine.runFrom cfg Engine.initState
        (Engine.intentsOfLog (Engine.runFrom cfg Engine.initState intents).log) =
      Engine.runFrom cfg Engine.initState intents ∧
    (Engine.runFrom cfg Engine.initState
        (Engine.intentsOfLog (Engine.runFrom cfg Engine.initState intents).log)).book =
      (Engine.runFrom cfg Engine.initState intents).book ∧
    (Engine.runFrom cfg Engine.initState
        (Engine.intentsOfLog (Engine.runFrom cfg Engine.initState intents).log)).trades =
      (Engine.runFrom cfg Engine.initState intents).trades := by
  have key : Engine.intentsOfLog (Engine.runFrom cfg Engine.initState intents).log =
      intents := by
    rw [Engine.runFrom_intents]
    simp [Engine.initState, Engine.intentsOfLog]
  rw [key]
  exact ⟨rfl, rfl, rfl⟩

/-- C5 witness: replaying the audit log of a concrete run — a resting
sell, a crossing market buy and a cancel — reproduces the identical
final state. -/
theorem audit_replay_reproduces_state_witness :
    Engine.runFrom ⟨fun _ => none, 100, 10⟩ Engine.initState
        (Engine.intentsOfLog (Engine.runFrom ⟨fun _ => none, 100, 10⟩ Engine.initState
          [.submit ⟨1, .sell, .limit 10, 100⟩, .submit ⟨2, .buy, .market, 60⟩,
           .cancel 1]).log) =
      Engine.runFrom ⟨fun _ => none, 100, 10⟩ Engine.initState
        [.submit ⟨1, .sell, .limit 10, 100⟩, .submit ⟨2, .buy, .market, 60⟩,
         .cancel 1] :=
  (audit_replay_reproduces_state ⟨fun _ => none, 100, 10⟩
    [.submit ⟨1, .sell, .limit 10, 100⟩, .submit ⟨2, .buy, .market, 60⟩, .cancel 1]).1

/-- C9: `getAverageAPY` returns `0` whenever the positions list holds no
`Active` position (the division by the count of active positions is
guarded), and otherwise returns the arithmetic mean of the active
positions' `apy` fields: the result times the active count is the sum of
the active APYs. -/
theorem getAverageAPY_guarded_mean (ps : List Frontend.Position) :
    ((∀ p ∈ ps, p.status ≠ Frontend.PositionStatus.Active) →
      Frontend.getAverageAPY ps = 0) ∧
    (ps.filter (fun p => decide (p.status = Frontend.PositionStatus.Active)) ≠ [] →
      Frontend.getAverageAPY ps *
          ((ps.filter (fun p => decide (p.status = Frontend.PositionStatus.Active))).length :
            Rat) =
        ((ps.filter (fun p => decide (p.status = Frontend.PositionStatus.Active))).map
            Frontend.Position.apy).sum) := by
  constructor
  · intro h
    have hfil : ps.filter (fun p => decide (p.status = Frontend.PositionStatus.Active)) = [] := by
      rw [List.filter_eq_nil_iff]
      intro p hp
      simp [h p hp]
    simp [Frontend.getAverageAPY, hfil]
  · intro h
    have hlen :
        (ps.filter (fun p => decide (p.status = Frontend.PositionStatus.Active))).length ≠ 0 := by
      simpa [List.length_eq_zero] using h
    simp only [Frontend.getAverageAPY]
    rw [if_neg hlen, div_mul_cancel₀]
    exact Nat.cast_ne_zero.mpr hlen

/-- C9 witness: a list with no active position averages to `0`; a list
with two active positions (APY 5 and 7) and one closed position averages
to 6 (times the count 2, the sum 12). -/
theorem getAverageAPY_guarded_mean_witness :
    Frontend.getAverageAPY
        [⟨"a", 100, 5, Frontend.PositionStatus.Closed⟩] = 0 ∧
    Frontend.getAverageAPY
          [⟨"a", 100, 5, Frontend.PositionStatus.Active⟩,
           ⟨"b", 50, 7, Frontend.PositionStatus.Active⟩,
           ⟨"c", 10, 9, Frontend.PositionStatus.Closed⟩] *
        ((([⟨"a", 100, 5, Frontend.PositionStatus.Active⟩,
           ⟨"b", 50, 7, Frontend.PositionStatus.Active⟩,
           ⟨"c", 10, 9, Frontend.PositionStatus.Closed⟩] : List Frontend.Position).filter
            (fun p => decide (p.status = Frontend.PositionStatus.Active))).length : Rat) =
      ((([⟨"a", 100, 5, Frontend.PositionStatus.Active⟩,
          ⟨"b", 50, 7, Frontend.PositionStatus.Active⟩,
          ⟨"c", 10, 9, Frontend.PositionStatus.Closed⟩] : List Frontend.Position).filter
           (fun p => decide (p.status = Frontend.PositionStatus.Active))).map
         Frontend.Position.apy).sum :=
  ⟨(getAverageAPY_guarded_mean _).1 (by decide),
   (getAverageAPY_guarded_mean _).2 (by decide)⟩

/-- C10: submitting the `NewPositionForm` with a user, a protocol and a
pool selected but every entered asset amount at most `0` (so the
filtered deposit list is empty) sets the error message and returns
without calling `DeFiService.createPosition`, leaving the rest of the
form state unchanged. -/
theorem handleSubmit_empty_deposit_error (uid : String) (st : Frontend.FormState)
    (serviceOk : Bool)
    (hproto : st.selectedProtocol ≠ "") (hpool : st.selectedPool ≠ "")
    (hall : ∀ a ∈ st.assets, a.amount ≤ 0) :
    Frontend.handleSubmit true uid st serviceOk =
      ({ st with error := some "Please enter at least one asset amount" }, none) := by
  have hfil : st.assets.filter (fun a => decide (0 < a.amount)) = [] := by
    rw [List.filter_eq_nil_iff]
    intro a ha
    simpa using not_lt.mpr (hall a ha)
  simp [Frontend.handleSubmit, hfil, hproto, hpool]

/-- C2: matching neither creates nor destroys quantity.  In aggregate,
the traded total equals the incoming order's decrease and the matched
side's decrease.  Per trade, the `i`-th trade executes against the
`i`-th front resting order at that order's price, and its quantity
equals both the maker's decrease (its remaining before matching minus
the remaining the book records after, `0` once removed) and the taker's
decrease (its remaining before the trade minus its remaining after). -/
theorem trade_quantity_conservation (tid : Nat) (side : Engine.Side)
    (ty : Engine.OrderType) (rem : Nat) (opp : List Engine.Resting)
    (hpos : ∀ x ∈ opp, 0 < x.remaining)
    (hids : (opp.map Engine.Resting.orderId).Nodup) :
    Engine.sumQty (Engine.matchLoop tid side ty rem opp).1 +
        (Engine.matchLoop tid side ty rem opp).2.2 = rem ∧
    Engine.sumQty (Engine.matchLoop tid side ty rem opp).1 +
        Engine.sumRem (Engine.matchLoop tid side ty rem opp).2.1 = Engine.sumRem opp ∧
    ∀ (i : Nat) (tr : Engine.Trade),
      (Engine.matchLoop tid side ty rem opp).1.get? i = some tr →
      ∃ m, opp.get? i = some m ∧ tr.makerOrderId = m.orderId ∧ tr.price = m.price ∧
        tr.quantity +
            Engine.remainingIn (Engine.matchLoop tid side ty rem opp).2.1 m.orderId =
          m.remaining ∧
        tr.quantity +
            (rem - Engine.sumQty ((Engine.matchLoop tid side ty rem opp).1.take (i + 1))) =
          rem - Engine.sumQty ((Engine.matchLoop tid side ty rem opp).1.take i) := by
  refine ⟨(Engine.matchLoop_sums opp rem).1, (Engine.matchLoop_sums opp rem).2, ?_⟩
  intro i tr htr
  obtain ⟨m, hm, h1, h2, h3⟩ := Engine.matchLoop_maker_delta opp rem hpos hids i tr htr
  refine ⟨m, hm, h1, h2, h3, ?_⟩
  have hsucc := Engine.sumQty_take_succ _ i tr htr
  have hle1 := Engine.sumQty_take_le (Engine.matchLoop tid side ty rem opp).1 (i + 1)
  have hagg := (@Engine.matchLoop_sums tid side ty opp rem).1
  omega

/-- C2 witness: a market buy of 70 against two resting asks of 50
each — the traded total (70) plus the taker's leftover (0) is the
submitted 70, and it equals the book side's decrease from 100 to 30. -/
theorem trade_quantity_conservation_witness :
    Engine.sumQty (Engine.matchLoop 9 Engine.Side.buy Engine.OrderType.market 70
        [⟨1, 10, 50⟩, ⟨2, 10, 50⟩]).1 +
      (Engine.matchLoop 9 Engine.Side.buy Engine.OrderType.market 70
        [⟨1, 10, 50⟩, ⟨2, 10, 50⟩]).2.2 = 70 :=
  (trade_quantity_conservation 9 Engine.Side.buy Engine.OrderType.market 70
    [⟨1, 10, 50⟩, ⟨2, 10, 50⟩] (by decide) (by decide)).1

/-- C3: resting orders are consumed in strict arrival (FIFO) order: the
makers of a matching cycle's trades are exactly the front resting orders
of the matched side in arrival order, and the matched side afterwards is
exactly the front consumption of the traded total — an earlier order is
fully consumed before any later order is touched.  In particular
(scenario conjunct), with resting asks A=50 and B=50 at price 10, a
market buy of 70 trades (A, 50, 10) then (B, 20, 10) and leaves B
resting with 30. -/
theorem price_level_fifo (tid : Nat) (side : Engine.Side) (ty : Engine.OrderType)
    (rem : Nat) (opp : List Engine.Resting)
    (hpos : ∀ x ∈ opp, 0 < x.remaining) :
    (Engine.matchLoop tid side ty rem opp).1.map Engine.Trade.makerOrderId =
      (opp.take (Engine.matchLoop tid side ty rem opp).1.length).map
        Engine.Resting.orderId ∧
    (Engine.matchLoop tid side ty rem opp).2.1 =
      Engine.consumeFront (Engine.sumQty (Engine.matchLoop tid side ty rem opp).1) opp ∧
    Engine.submitOrder ⟨[], [⟨1, 10, 50⟩, ⟨2, 10, 50⟩]⟩ ⟨3, .buy, .market, 70⟩ =
      ([⟨1, 3, 10, 50⟩, ⟨2, 3, 10, 20⟩], ⟨[], [⟨2, 10, 30⟩]⟩, .filled) :=
  ⟨Engine.matchLoop_makers opp rem, Engine.matchLoop_consumeFront opp rem hpos, by decide⟩

/-- C3 witness: the market buy of 70 against asks A=50, B=50 leaves the
ask side equal to the front consumption of 70 — A gone, B reduced to
30. -/
theorem price_level_fifo_witness :
    (Engine.matchLoop 3 Engine.Side.buy Engine.OrderType.market 70
        [⟨1, 10, 50⟩, ⟨2, 10, 50⟩]).2.1 =
      Engine.consumeFront 70 [⟨1, 10, 50⟩, ⟨2, 10, 50⟩] := by
  have h := (price_level_fifo 3 Engine.Side.buy Engine.OrderType.market 70
    [⟨1, 10, 50⟩, ⟨2, 10, 50⟩] (by decide)).2.1
  have hs : Engine.sumQty (Engine.matchLoop 3 Engine.Side.buy Engine.OrderType.market 70
      [⟨1, 10, 50⟩, ⟨2, 10, 50⟩]).1 = 70 := by decide
  rw [hs] at h
  exact h

/-- C4: against the front resting order at an acceptable price, `submit`
executes exactly `min(incoming.remaining, resting.remaining)` at the
resting order's price (the first trade of the cycle), removes the
resting order from the book iff it is fully consumed, and on a partial
consumption leaves it at the front with its remaining decremented by the
executed amount.  In particular (scenario conjuncts), a limit sell
100@10 rests in the empty book, and a market buy of 60 then yields one
trade at price 10 for 60 and leaves the ask level at 40. -/
theorem submit_min_execution (tid : Nat) (side : Engine.Side) (ty : Engine.OrderType)
    (rem : Nat) (r : Engine.Resting) (t : List Engine.Resting)
    (h0 : rem ≠ 0) (hacc : Engine.acceptable side ty r.price = true)
    (hid : r.orderId ∉ t.map Engine.Resting.orderId) :
    (∃ ts', (Engine.matchLoop tid side ty rem (r :: t)).1 =
        ⟨r.orderId, tid, r.price, min rem r.remaining⟩ :: ts') ∧
    (r.remaining ≤ rem ↔
      ∀ x ∈ (Engine.matchLoop tid side ty rem (r :: t)).2.1, x.orderId ≠ r.orderId) ∧
    (rem < r.remaining →
      (Engine.matchLoop tid side ty rem (r :: t)).2.1 =
        { r with remaining := r.remaining - rem } :: t) ∧
    Engine.submitOrder ⟨[], []⟩ ⟨1, .sell, .limit 10, 100⟩ =
      ([], ⟨[], [⟨1, 10, 100⟩]⟩, .rested 100) ∧
    Engine.submitOrder ⟨[], [⟨1, 10, 100⟩]⟩ ⟨2, .buy, .market, 60⟩ =
      ([⟨1, 2, 10, 60⟩], ⟨[], [⟨1, 10, 40⟩]⟩, .filled) := by
  have hml : Engine.matchLoop tid side ty rem (r :: t) =
      if r.remaining ≤ rem then
        (⟨r.orderId, tid, r.price, min rem r.remaining⟩ ::
            (Engine.matchLoop tid side ty (rem - min rem r.remaining) t).1,
          (Engine.matchLoop tid side ty (rem - min rem r.remaining) t).2.1,
          (Engine.matchLoop tid side ty (rem - min rem r.remaining) t).2.2)
      else ([⟨r.orderId, tid, r.price, min rem r.remaining⟩],
          { r with remaining := r.remaining - min rem r.remaining } :: t,
          rem - min rem r.remaining) := by
    simp only [Engine.matchLoop]
    rw [if_neg h0, if_pos hacc]
  refine ⟨?_, ?_, ?_, by decide, by decide⟩
  · by_cases hfull : r.remaining ≤ rem
    · exact ⟨_, by rw [hml, if_pos hfull]⟩
    · exact ⟨_, by rw [hml, if_neg hfull]⟩
  · by_cases hfull : r.remaining ≤ rem
    · refine iff_of_true hfull ?_
      rw [hml, if_pos hfull]
      intro x hx
      obtain ⟨y, hy, hxy, _, _⟩ := Engine.matchLoop_mem _ _ x hx
      rw [hxy]
      intro habs
      exact hid (habs ▸ List.mem_map_of_mem Engine.Resting.orderId hy)
    · refine iff_of_false hfull ?_
      intro hall
      have hmem : ({ r with remaining := r.remaining - min rem r.remaining } : Engine.Resting) ∈
          (Engine.matchLoop tid side ty rem (r :: t)).2.1 := by
        rw [hml, if_neg hfull]
        exact List.mem_cons_self _ _
      exact hall _ hmem rfl
  · intro hlt
    have hq : min rem r.remaining = rem := Nat.min_eq_left (Nat.le_of_lt hlt)
    rw [hml, if_neg (Nat.not_le.mpr hlt), hq]

/-- C4 witness: the market buy of 60 against the resting ask 100@10
partially consumes it, leaving it at the front with remaining 40. -/
theorem submit_min_execution_witness :
    (Engine.matchLoop 2 Engine.Side.buy Engine.OrderType.market 60
        [⟨1, 10, 100⟩]).2.1 = [⟨1, 10, 40⟩] := by
  have h := (submit_min_execution 2 Engine.Side.buy Engine.OrderType.market 60
    ⟨1, 10, 100⟩ [] (by decide) (by decide) (by decide)).2.2.1 (by decide)
  exact h

/-- C6: for an order id whose order is already in a terminal state,
`cancel(order_id)` is an idempotent no-op that returns "already
terminal": the book, the trade history and the status index are left
unchanged (no completed trade is reverted), and a second cancel of the
same id behaves identically. -/
theorem cancel_terminal_idempotent_noop (cfg : Engine.EngineConfig)
    (s : Engine.EngineState) (id : Nat) (st : Engine.OrderStatus)
    (hlk : List.lookup id s.statuses = some st)
    (hterm : Engine.isTerminal st = true) :
    (Engine.processIntent cfg s (.cancel id)).2 = .cancelAlreadyTerminal ∧
    (Engine.processIntent cfg s (.cancel id)).1.book = s.book ∧
    (Engine.processIntent cfg s (.cancel id)).1.trades = s.trades ∧
    (Engine.processIntent cfg s (.cancel id)).1.statuses = s.statuses ∧
    (Engine.processIntent cfg (Engine.processIntent cfg s (.cancel id)).1 (.cancel id)).2 =
      .cancelAlreadyTerminal ∧
    (Engine.processIntent cfg (Engine.processIntent cfg s (.cancel id)).1
        (.cancel id)).1.book = s.book ∧
    (Engine.processIntent cfg (Engine.processIntent cfg s (.cancel id)).1
        (.cancel id)).1.trades = s.trades := by
  have hred : Engine.processIntent cfg s (.cancel id) =
      (Engine.appendEvent s (.cancelNoop id), .cancelAlreadyTerminal) := by
    simp [Engine.processIntent, hlk, hterm]
  have hlk2 : List.lookup id (Engine.appendEvent s (.cancelNoop id)).statuses = some st := hlk
  have hred2 : Engine.processIntent cfg (Engine.appendEvent s (.cancelNoop id)) (.cancel id) =
      (Engine.appendEvent (Engine.appendEvent s (.cancelNoop id)) (.cancelNoop id),
        .cancelAlreadyTerminal) := by
    simp [Engine.processIntent, hlk2, hterm]
  rw [hred, hred2]
  exact ⟨rfl, rfl, rfl, rfl, rfl, rfl, rfl⟩

/-- C6 witness: cancelling the already-`Filled` order 5 no-ops with
"already terminal" and reverts neither the book nor the committed
trade. -/
theorem cancel_terminal_idempotent_noop_witness :
    (Engine.processIntent ⟨fun _ => none, 100, 10⟩
        ⟨⟨[⟨4, 10, 5⟩], []⟩, [⟨4, 9, 10, 5⟩], [], [(5, Engine.OrderStatus.Filled)],
          .Open, 2⟩ (.cancel 5)).2 = .cancelAlreadyTerminal ∧
    (Engine.processIntent ⟨fun _ => none, 100, 10⟩
        ⟨⟨[⟨4, 10, 5⟩], []⟩, [⟨4, 9, 10, 5⟩], [], [(5, Engine.OrderStatus.Filled)],
          .Open, 2⟩ (.cancel 5)).1.trades = [⟨4, 9, 10, 5⟩] := by
  have h := cancel_terminal_idempotent_noop ⟨fun _ => none, 100, 10⟩
    ⟨⟨[⟨4, 10, 5⟩], []⟩, [⟨4, 9, 10, 5⟩], [], [(5, Engine.OrderStatus.Filled)], .Open, 2⟩
    5 Engine.OrderStatus.Filled (by decide) (by decide)
  exact ⟨h.1, h.2.2.1⟩

/-- C7: while a symbol's circuit breaker is `Halted`, (a) every
marketable submission passing risk is rejected with the retryable
"halted" reason and touches neither book nor trades; (b) a cancel of a
live order is still accepted and removes the order from the book;
(c) a non-marketable limit submission still rests on its own side.
The scenario conjuncts: with reference 100 and threshold 10%, a
marketable order that would print at 80 halts the breaker and is
rejected with the halted reason, and a cancel submitted right after is
still accepted. -/
theorem circuit_breaker_halted_behavior :
    (∀ (cfg : Engine.EngineConfig) (s : Engine.EngineState) (o : Engine.Order),
      s.breaker = .Halted → cfg.riskCheck o = none →
      Engine.marketable s.book o = true →
        (Engine.processIntent cfg s (.submit o)).2 = .rejected .halted ∧
        (Engine.processIntent cfg s (.submit o)).1.book = s.book ∧
        (Engine.processIntent cfg s (.submit o)).1.trades = s.trades) ∧
    (∀ (cfg : Engine.EngineConfig) (s : Engine.EngineState) (id : Nat)
        (st : Engine.OrderStatus),
      s.breaker = .Halted → List.lookup id s.statuses = some st →
      Engine.isTerminal st = false →
        (Engine.processIntent cfg s (.cancel id)).2 = .cancelled ∧
        ∀ r ∈ (Engine.processIntent cfg s (.cancel id)).1.book.bids ++
            (Engine.processIntent cfg s (.cancel id)).1.book.asks, r.orderId ≠ id) ∧
    (∀ (cfg : Engine.EngineConfig) (s : Engine.EngineState) (o : Engine.Order) (p : Nat),
      s.breaker = .Halted → cfg.riskCheck o = none →
      Engine.marketable s.book o = false → o.otype = .limit p → 0 < o.quantity →
        (Engine.processIntent cfg s (.submit o)).2 = .accepted [] ∧
        (⟨o.orderId, p, o.quantity⟩ : Engine.Resting) ∈
          Engine.sideOrders (Engine.processIntent cfg s (.submit o)).1.book o.side ∧
        (Engine.processIntent cfg s (.submit o)).1.trades = s.trades) ∧
    ((Engine.processIntent ⟨fun _ => none, 100, 10⟩
        ⟨⟨[], [⟨7, 80, 10⟩]⟩, [], [], [(7, Engine.OrderStatus.Open)], .Open, 0⟩
        (.submit ⟨8, .buy, .market, 5⟩)).2 = .rejected .halted ∧
      (Engine.processIntent ⟨fun _ => none, 100, 10⟩
        (Engine.processIntent ⟨fun _ => none, 100, 10⟩
          ⟨⟨[], [⟨7, 80, 10⟩]⟩, [], [], [(7, Engine.OrderStatus.Open)], .Open, 0⟩
          (.submit ⟨8, .buy, .market, 5⟩)).1 (.cancel 7)).2 = .cancelled) := by
  refine ⟨?_, ?_, ?_, by decide⟩
  · intro cfg s o hbr hrc hm
    have hred : Engine.processIntent cfg s (.submit o) =
        (Engine.appendEvent
          { s with statuses := Engine.setStatus s.statuses o.orderId .Rejected }
          (.reject o .halted), .rejected .halted) := by
      simp [Engine.processIntent, hrc, hbr, hm]
    rw [hred]
    exact ⟨rfl, rfl, rfl⟩
  · intro cfg s id st hbr hlk hterm
    have hred : Engine.processIntent cfg s (.cancel id) =
        (Engine.appendEvent
          { s with book := Engine.removeOrder s.book id,
                   statuses := Engine.setStatus s.statuses id .Cancelled }
          (.cancelOk id), .cancelled) := by
      simp [Engine.processIntent, hlk, hterm]
    rw [hred]
    refine ⟨rfl, ?_⟩
    intro r hr
    exact Engine.removeOrder_not_mem s.book id r hr
  · intro cfg s o p hbr hrc hm hty hq
    have hred : Engine.processIntent cfg s (.submit o) = Engine.execSubmit s o := by
      simp [Engine.processIntent, hrc, hbr, hm]
    obtain ⟨ht1, ht2⟩ := Engine.submitOrder_not_marketable s.book o p hm hty hq
    refine ⟨?_, ?_, ?_⟩
    · rw [hred, Engine.execSubmit_resp, ht1]
    · rw [hred, Engine.execSubmit_book, ht2]
      cases hside : o.side with
      | buy =>
        simp only [hside, Engine.sideOrders]
        exact Engine.insertBid_self _ _
      | sell =>
        simp only [hside, Engine.sideOrders]
        exact Engine.insertAsk_self _ _
    · rw [hred, Engine.execSubmit_trades, ht1]
      simp

/-- C7 witness: in a halted engine holding the resting ask 7 at price
80, the marketable market buy 8 is rejected with the halted reason, the
cancel of order 7 is still accepted, and the non-crossing limit buy 9 at
50 still rests on the bid side. -/
theorem circuit_breaker_halted_behavior_witness :
    (Engine.processIntent ⟨fun _ => none, 100, 10⟩
        ⟨⟨[], [⟨7, 80, 10⟩]⟩, [], [], [(7, Engine.OrderStatus.Open)], .Halted, 0⟩
        (.submit ⟨8, .buy, .market, 5⟩)).2 = .rejected .halted ∧
    (Engine.processIntent ⟨fun _ => none, 100, 10⟩
        ⟨⟨[], [⟨7, 80, 10⟩]⟩, [], [], [(7, Engine.OrderStatus.Open)], .Halted, 0⟩
        (.cancel 7)).2 = .cancelled ∧
    (⟨9, 50, 3⟩ : Engine.Resting) ∈ Engine.sideOrders
      (Engine.processIntent ⟨fun _ => none, 100, 10⟩
        ⟨⟨[], [⟨7, 80, 10⟩]⟩, [], [], [(7, Engine.OrderStatus.Open)], .Halted, 0⟩
        (.submit ⟨9, .buy, .limit 50, 3⟩)).1.book Engine.Side.buy := by
  refine ⟨?_, ?_, ?_⟩
  · exact (circuit_breaker_halted_behavior.1 ⟨fun _ => none, 100, 10⟩
      ⟨⟨[], [⟨7, 80, 10⟩]⟩, [], [], [(7, Engine.OrderStatus.Open)], .Halted, 0⟩
      ⟨8, .buy, .market, 5⟩ rfl rfl (by decide)).1
  · exact (circuit_breaker_halted_behavior.2.1 ⟨fun _ => none, 100, 10⟩
      ⟨⟨[], [⟨7, 80, 10⟩]⟩, [], [], [(7, Engine.OrderStatus.Open)], .Halted, 0⟩
      7 Engine.OrderStatus.Open rfl (by decide) (by decide)).1
  · exact (circuit_breaker_halted_behavior.2.2.1 ⟨fun _ => none, 100, 10⟩
      ⟨⟨[], [⟨7, 80, 10⟩]⟩, [], [], [(7, Engine.OrderStatus.Open)], .Halted, 0⟩
      ⟨9, .buy, .limit 50, 3⟩ 50 rfl rfl (by decide) rfl (by decide)).2.1

/-- C8: an order rejected by the Risk Validator is reported
synchronously with its reason code, the book and the trade history are
left entirely unchanged, and the only audit side effect is exactly one
Reject record appended to the log. -/
theorem risk_reject_frame (cfg : Engine.EngineConfig) (s : Engine.EngineState)
    (o : Engine.Order) (code : Nat) (hrc : cfg.riskCheck o = some code) :
    (Engine.processIntent cfg s (.submit o)).2 = .rejected (.risk code) ∧
    (Engine.processIntent cfg s (.submit o)).1.book = s.book ∧
    (Engine.processIntent cfg s (.submit o)).1.trades = s.trades ∧
    (Engine.processIntent cfg s (.submit o)).1.log =
      s.log ++ [⟨s.nextSeq, .reject o (.risk code), Engine.lastHash s.log,
        Engine.chainHash (Engine.lastHash s.log)
          (Engine.eventCode (.reject o (.risk code)))⟩] := by
  have hred : Engine.processIntent cfg s (.submit o) =
      (Engine.appendEvent
        { s with statuses := Engine.setStatus s.statuses o.orderId .Rejected }
        (.reject o (.risk code)), .rejected (.risk code)) := by
    simp [Engine.processIntent, hrc]
  rw [hred]
  exact ⟨rfl, rfl, rfl, rfl⟩

/-- C8 witness: with a validator rejecting everything with code 42, a
submission is rejected with that code and the resting bid book is
untouched. -/
theorem risk_reject_frame_witness :
    (Engine.processIntent ⟨fun _ => some 42, 100, 10⟩
        ⟨⟨[⟨4, 10, 5⟩], []⟩, [], [], [], .Open, 0⟩ (.submit ⟨8, .buy, .market, 5⟩)).2 =
      .rejected (.risk 42) ∧
    (Engine.processIntent ⟨fun _ => some 42, 100, 10⟩
        ⟨⟨[⟨4, 10, 5⟩], []⟩, [], [], [], .Open, 0⟩ (.submit ⟨8, .buy, .market, 5⟩)).1.book =
      ⟨[⟨4, 10, 5⟩], []⟩ := by
  have h := risk_reject_frame ⟨fun _ => some 42, 100, 10⟩
    ⟨⟨[⟨4, 10, 5⟩], []⟩, [], [], [], .Open, 0⟩ ⟨8, .buy, .market, 5⟩ 42 rfl
  exact ⟨h.1, h.2.1⟩

/-- C10 witness: a filled form whose two asset amounts are `0` and `-1`
submits to the error message with no service call. -/
theorem handleSubmit_empty_deposit_error_witness :
    Frontend.handleSubmit true "u"
        ⟨"proto", "pool", [⟨"BTC", 0⟩, ⟨"ETH", -1⟩], false, false, none⟩ true =
      (⟨"proto", "pool", [⟨"BTC", 0⟩, ⟨"ETH", -1⟩], false, false,
          some "Please enter at least one asset amount"⟩, none) :=
  handleSubmit_empty_deposit_error "u" _ true (by decide) (by decide) (by decide)

end Spec2Proof
